import Mathlib

/-!
Verification of the algorithmic core of `libtransmission`'s crypto utility
layer (`crypto-utils.c`): Diffie-Hellman key alignment, the two-tier bounded
random integer, the salted SHA-1 verifier, and the bit-level base-32 codec.

Byte strings are modelled as `List Nat` with entries below 256; `size_t`
arithmetic is modelled as `Nat` arithmetic modulo `2 ^ 64` where the source
relies on unsigned wraparound; C `int` values are modelled as `Int` with the
32-bit extremes made explicit.
-/

namespace CryptoUtils

/-! ## tr_dh_align_key -/

/-- Embedding of `tr_dh_align_key`: the buffer is a list whose length is
`buffer_size`; when `key_size < buffer_size` the first `key_size` bytes are
moved to the end (`memmove`) and the vacated leading bytes are zeroed
(`memset`). -/
def tr_dh_align_key (key_buffer : List Nat) (key_size : Nat) : List Nat :=
  if key_size < key_buffer.length then
    List.replicate (key_buffer.length - key_size) 0 ++ key_buffer.take key_size
  else
    key_buffer

/-! ## tr_rand_int / tr_rand_int_weak -/

/-- Smallest value of a 32-bit C `int`. -/
def intMin : Int := -(2 ^ 31)

/-- C `abs` on a 32-bit `int` under the usual two's-complement wraparound:
`abs (INT_MIN)` is undefined behaviour and comes back as `INT_MIN` itself
(the negative value the source's comment anticipates); every other value maps
to its absolute value. -/
def cAbs (n : Int) : Int :=
  if n = intMin then intMin else (n.natAbs : Int)

/-- Embedding of `tr_rand_int_weak`: after the one-time seeding the function
returns `rand () % upper_bound`; the `rand ()` draw (a nonnegative C `int`)
is passed in explicitly. -/
def tr_rand_int_weak (upper_bound : Nat) (randDraw : Nat) : Int :=
  ((randDraw : Int)).tmod (upper_bound : Int)

/-- Embedding of `tr_rand_int`: `draws` lists the values produced by the
successive successful `tr_rand_buffer` calls; once the list is exhausted the
strong source is considered to have failed and the weak fallback is used.
C's `%` on `int` truncates toward zero, hence `Int.tmod`. -/
def tr_rand_int (upper_bound : Nat) (draws : List Int) (weakDraw : Nat) : Int :=
  match draws with
  | [] => tr_rand_int_weak upper_bound weakDraw
  | d :: rest =>
    let noise := (cAbs d).tmod (upper_bound : Int)
    if 0 ≤ noise then noise else tr_rand_int upper_bound rest weakDraw

/-! ## tr_ssha1 / tr_ssha1_matches

The SHA-1 digest itself is computed by the external provider (OpenSSL behind
`tr_sha1_init`/`update`/`final`), so it enters the model as an arbitrary
function argument `sha1`; the salted-token glue around it is translated from
the source. -/

/-- Digest length of the default algorithm, `SHA_DIGEST_LENGTH`. -/
def SHA_DIGEST_LENGTH : Nat := 20

/-- Salt alphabet `salter` of `tr_ssha1`, as byte values. -/
def salter : List Nat :=
  ("0123456789abcdefghijklmnopqrstuvwxyzABCDEFGHIJKLMNOPQRSTUVWXYZ./".toList).map Char.toNat

/-- Modelled from the spec: single hex digit of the lowercase hex rendering
used by `tr_sha1_to_hex`, which lives in `utils.c`, outside the given
sources ("renders the digest as lowercase hex"). -/
def hexDigit (n : Nat) : Nat :=
  if n < 10 then 48 + n else 87 + n

/-- Modelled from the spec: `tr_sha1_to_hex` (defined in `utils.c`, outside
the given sources) renders each digest byte as two lowercase hex
characters. -/
def tr_sha1_to_hex : List Nat → List Nat
  | [] => []
  | b :: t => hexDigit (b / 16) :: hexDigit (b % 16) :: tr_sha1_to_hex t

/-- Salt actually used by `tr_ssha1`: each random byte is reduced modulo 64
and mapped through `salter`. -/
def saltOf (rawSalt : List Nat) : List Nat :=
  rawSalt.map (fun b => salter.getD (b % 64) 0)

/-- Embedding of `tr_ssha1`: token = `'{'`, the lowercase hex digest of
`plain_text || salt`, then the raw salt characters.  `rawSalt` is the
8-byte output of `tr_rand_buffer`. -/
def tr_ssha1 (sha1 : List Nat → List Nat) (plain rawSalt : List Nat) : List Nat :=
  let salt := saltOf rawSalt
  let sha := sha1 (plain ++ salt)
  123 :: (tr_sha1_to_hex sha ++ salt)

/-- Embedding of `tr_ssha1_matches`.  `saltlen` is computed in `size_t`
arithmetic, so the subtraction wraps modulo `2 ^ 64`; the subsequent
`memcpy (salt, ssha1 + 41, saltlen)` is modelled as `none` (an out-of-range
read, undefined behaviour) whenever the source range does not fit inside the
`sourcelen` token characters. -/
def tr_ssha1_matches (sha1 : List Nat → List Nat) (ssha1 plain : List Nat) : Option Bool :=
  let sourcelen := ssha1.length
  if sourcelen < 2 * SHA_DIGEST_LENGTH - 1 then
    some false
  else
    let saltlen := (sourcelen + (2 ^ 64 - (2 * SHA_DIGEST_LENGTH + 1))) % 2 ^ 64
    if 2 * SHA_DIGEST_LENGTH + 1 + saltlen ≤ sourcelen then
      let salt := (ssha1.drop (2 * SHA_DIGEST_LENGTH + 1)).take saltlen
      let buf := sha1 (plain ++ salt)
      let my_ssha1 := 123 :: (tr_sha1_to_hex buf ++ salt)
      some (decide (ssha1 = my_ssha1))
    else
      none

/-! ## Base-32 codec -/

/-- Encoding alphabet `base32_chars`, as byte values. -/
def base32_chars : List Nat :=
  ("ABCDEFGHIJKLMNOPQRSTUVWXYZ234567".toList).map Char.toNat

/-- Character emitted for a 5-bit digit: `base32_chars[digit]`. -/
def base32char (digit : Nat) : Nat := base32_chars.getD digit 0

/-- Decoding table `base32_lookup` (indexed from `'0'`, 80 entries,
`0xFF` marks an invalid character). -/
def base32_lookup : List Nat :=
  [0xFF,0xFF,0x1A,0x1B,0x1C,0x1D,0x1E,0x1F,
   0xFF,0xFF,0xFF,0xFF,0xFF,0xFF,0xFF,0xFF,
   0xFF,0x00,0x01,0x02,0x03,0x04,0x05,0x06,
   0x07,0x08,0x09,0x0A,0x0B,0x0C,0x0D,0x0E,
   0x0F,0x10,0x11,0x12,0x13,0x14,0x15,0x16,
   0x17,0x18,0x19,0xFF,0xFF,0xFF,0xFF,0xFF,
   0xFF,0x00,0x01,0x02,0x03,0x04,0x05,0x06,
   0x07,0x08,0x09,0x0A,0x0B,0x0C,0x0D,0x0E,
   0x0F,0x10,0x11,0x12,0x13,0x14,0x15,0x16,
   0x17,0x18,0x19,0xFF,0xFF,0xFF,0xFF,0xFF]

/-- Emission loop of `tr_base32_encode`, at state `i` (input position) and
`index` (bit position inside the current byte).  Out-of-input reads never
occur: `input_bytes[i]` is read under `i < input_length` and
`input_bytes[i + 1]` only under `i + 1 < input_length`, else `next_byte = 0`. -/
def encodeLoop (input : List Nat) (i index : Nat) : List Nat :=
  if h : i < input.length then
    let curr_byte := input.getD i 0
    if index > 3 then
      let next_byte := if i + 1 < input.length then input.getD (i + 1) 0 else 0
      let index' := (index + 5) % 8
      let digit := ((curr_byte &&& (0xFF >>> index)) <<< index') ||| (next_byte >>> (8 - index'))
      base32char digit :: encodeLoop input (i + 1) index'
    else
      let digit := (curr_byte >>> (8 - (index + 5))) &&& 0x1F
      let index' := (index + 5) % 8
      if index' = 0 then
        base32char digit :: encodeLoop input (i + 1) 0
      else
        base32char digit :: encodeLoop input i index'
  else
    []
termination_by 2 * (input.length - i) + (7 - index) / 4
decreasing_by
  all_goals omega

/-- Embedding of `tr_base32_encode`.  `output = none` models a NULL output
pointer, `wantLen = false` a NULL `output_length` pointer; the first
component is the value stored into `*output_length`, the second the bytes
written into the output buffer. -/
def tr_base32_encode (input : List Nat) (output : Option Unit) (wantLen : Bool) :
    Option Nat × Option (List Nat) :=
  let my_output_length := (input.length * 8 + 4) / 5
  (if wantLen then some my_output_length else none,
   match output with
   | none => none
   | some _ => some (encodeLoop input 0 0))

/-- OR-store of `digit` bits into byte `off` of the output region (a
`uint8_t` store truncates modulo 256).  A store at `off ≥ buf.length` is one
past the `my_output_length` bytes the caller was told to allocate: the
buffer is left unchanged and the out-of-bounds flag is raised. -/
def orWrite (buf : List Nat) (off v : Nat) : List Nat × Bool :=
  if off < buf.length then
    (buf.set off ((buf.getD off 0 ||| v) % 256), false)
  else
    (buf, true)

/-- Table lookup of `tr_base32_decode` for one input character: the index
`input_bytes[i] - '0'` is computed in `size_t`, so for a byte below `'0'` it
wraps around to `c + (2 ^ 64 - 48)`; characters outside the table or mapping
to `0xFF` are skipped.  (`validDigit_lookup_wrap` below checks this branch-free
statement of the wraparound against the literal `mod 2 ^ 64` arithmetic.) -/
def validDigit (c : Nat) : Option Nat :=
  let lookup := if 48 ≤ c then c - 48 else c + (18446744073709551616 - 48)
  if lookup ≥ 80 then none
  else
    let digit := base32_lookup.getD lookup 0
    if digit = 0xFF then none else some digit

/-- Wraparound check: for any byte value `c` (indeed any `c < 2 ^ 64`), the
branch formulation of `input_bytes[i] - '0'` used in `validDigit` agrees with
the `size_t` subtraction `(c + (2 ^ 64 - 48)) % 2 ^ 64`. -/
theorem validDigit_lookup_wrap (c : Nat) (hc : c < 2 ^ 64) :
    (if 48 ≤ c then c - 48 else c + (18446744073709551616 - 48))
      = (c + (2 ^ 64 - 48)) % 2 ^ 64 := by
  rcases le_or_lt 48 c with h | h
  · rw [if_pos h]
    omega
  · rw [if_neg (by omega)]
    rw [Nat.mod_eq_of_lt (by omega)]
    omega

/-- Body of one accepted-digit iteration of the `tr_base32_decode` loop:
either the continuation state `(index, offset, buffer, oob)` or, after the
`break` on `offset ≥ my_output_length`, the final `(buffer, oob)`. -/
def decodeStep (digit index offset : Nat) (buf : List Nat) :
    (Nat × Nat × List Nat × Bool) ⊕ (List Nat × Bool) :=
  if index ≤ 3 then
    let index' := (index + 5) % 8
    if index' = 0 then
      let w := orWrite buf offset digit
      if offset + 1 ≥ buf.length then Sum.inr (w.1, w.2)
      else Sum.inl (index', offset + 1, w.1, w.2)
    else
      let w := orWrite buf offset (digit <<< (8 - index'))
      Sum.inl (index', offset, w.1, w.2)
  else
    let index' := (index + 5) % 8
    let w1 := orWrite buf offset (digit >>> index')
    if offset + 1 ≥ buf.length then Sum.inr (w1.1, w1.2)
    else
      let w2 := orWrite w1.1 (offset + 1) (digit <<< (8 - index'))
      Sum.inl (index', offset + 1, w2.1, w1.2 || w2.2)

/-- Decode loop over the (already stripped) input characters. -/
def decodeChars : List Nat → Nat → Nat → List Nat → Bool → List Nat × Bool
  | [], _, _, buf, oob => (buf, oob)
  | c :: rest, index, offset, buf, oob =>
    match validDigit c with
    | none => decodeChars rest index offset buf oob
    | some digit =>
      match decodeStep digit index offset buf with
      | Sum.inr r => (r.1, oob || r.2)
      | Sum.inl s => decodeChars rest s.1 s.2.1 s.2.2.1 (oob || s.2.2.2)

/-- Decode loop specialised to a plain digit sequence (used to factor the
character loop through the skipping of invalid characters). -/
def decodeDigits : List Nat → Nat → Nat → List Nat → Bool → List Nat × Bool
  | [], _, _, buf, oob => (buf, oob)
  | digit :: rest, index, offset, buf, oob =>
    match decodeStep digit index offset buf with
    | Sum.inr r => (r.1, oob || r.2)
    | Sum.inl s => decodeDigits rest s.1 s.2.1 s.2.2.1 (oob || s.2.2.2)

/-- Removal of trailing `'='` characters at the head of `tr_base32_decode`. -/
def stripEq (l : List Nat) : List Nat :=
  (l.reverse.dropWhile (fun c => c == 61)).reverse

/-- Embedding of `tr_base32_decode`: trailing `'='` are stripped, the output
length is `stripped.length * 5 / 8`, the output region is zero-filled
(`memset`) and then filled by the decode loop.  The Bool in the result is
the out-of-bounds-write flag of the loop. -/
def tr_base32_decode (input : List Nat) (output : Option Unit) (wantLen : Bool) :
    Option Nat × Option (List Nat × Bool) :=
  let stripped := stripEq input
  let my_output_length := stripped.length * 5 / 8
  (if wantLen then some my_output_length else none,
   match output with
   | none => none
   | some _ => some (decodeChars stripped 0 0 (List.replicate my_output_length 0) false))

/-! ## Bitstream reference semantics

The spec describes both codec directions as operations on the input viewed
as a contiguous bitstream, most-significant-bit first.  Bits are naturals
below 2, listed MSB-first. -/

/-- Bits of one byte, most significant first. -/
def byteBits (x : Nat) : List Nat :=
  [x / 128 % 2, x / 64 % 2, x / 32 % 2, x / 16 % 2, x / 8 % 2, x / 4 % 2, x / 2 % 2, x % 2]

/-- Bits of one 5-bit digit, most significant first. -/
def bits5 (d : Nat) : List Nat :=
  [d / 16 % 2, d / 8 % 2, d / 4 % 2, d / 2 % 2, d % 2]

/-- Bitstream of a byte string. -/
def toBits : List Nat → List Nat
  | [] => []
  | b :: t => byteBits b ++ toBits t

/-- Bitstream of a digit string. -/
def bitsOfDigits : List Nat → List Nat
  | [] => []
  | d :: t => bits5 d ++ bitsOfDigits t

/-- Value of an MSB-first bit list. -/
def val2 : List Nat → Nat
  | [] => 0
  | b :: t => b * 2 ^ t.length + val2 t

/-- 5-bit groups of a bitstream, the final group zero-extended on its
low-order bits. -/
def groups5 : List Nat → List Nat
  | [] => []
  | b :: t => val2 ((b :: (t ++ [0, 0, 0, 0])).take 5) :: groups5 (t.drop 4)
termination_by l => l.length
decreasing_by simp only [List.length_drop, List.length_cons]; omega

/-- Bytes of a bitstream whose length is a multiple of 8. -/
def bytesOfBits : List Nat → List Nat
  | [] => []
  | b :: t => val2 ((b :: t).take 8) :: bytesOfBits (t.drop 7)
termination_by l => l.length
decreasing_by simp only [List.length_drop, List.length_cons]; omega

/-- MSB-first bit list (of length `index`) of a pending partial value
`p < 2 ^ index`, for `index ≤ 8`. -/
def partialBits (p index : Nat) : List Nat :=
  (byteBits p).drop (8 - index)

/-! ### Basic facts about the bitstream functions -/

theorem byteBits_length (x : Nat) : (byteBits x).length = 8 := rfl

theorem toBits_length : ∀ l : List Nat, (toBits l).length = 8 * l.length
  | [] => rfl
  | b :: t => by
    simp only [toBits, List.length_append, byteBits_length, toBits_length t, List.length_cons]
    ring

theorem toBits_append (l₁ l₂ : List Nat) : toBits (l₁ ++ l₂) = toBits l₁ ++ toBits l₂ := by
  induction l₁ with
  | nil => rfl
  | cons b t ih => simp [toBits, ih]

theorem bitsOfDigits_append (l₁ l₂ : List Nat) :
    bitsOfDigits (l₁ ++ l₂) = bitsOfDigits l₁ ++ bitsOfDigits l₂ := by
  induction l₁ with
  | nil => rfl
  | cons d t ih => simp [bitsOfDigits, ih]

theorem byteBits_mem_lt (b : Nat) : ∀ x ∈ byteBits b, x < 2 := by
  simp only [byteBits, List.mem_cons, List.not_mem_nil, or_false]
  rintro x (rfl | rfl | rfl | rfl | rfl | rfl | rfl | rfl) <;> omega

theorem toBits_mem_lt : ∀ l : List Nat, ∀ x ∈ toBits l, x < 2
  | [] => by simp [toBits]
  | b :: t => by
    simp only [toBits, List.mem_append]
    rintro x (hx | hx)
    · exact byteBits_mem_lt b x hx
    · exact toBits_mem_lt t x hx

theorem val2_append (l₁ l₂ : List Nat) :
    val2 (l₁ ++ l₂) = val2 l₁ * 2 ^ l₂.length + val2 l₂ := by
  induction l₁ with
  | nil => simp [val2]
  | cons b t ih =>
    rw [List.cons_append]
    rw [show val2 (b :: (t ++ l₂)) = b * 2 ^ (t ++ l₂).length + val2 (t ++ l₂) from rfl]
    rw [show val2 (b :: t) = b * 2 ^ t.length + val2 t from rfl]
    rw [ih, List.length_append, pow_add]
    ring

theorem val2_lt : ∀ l : List Nat, (∀ x ∈ l, x < 2) → val2 l < 2 ^ l.length
  | [] => by simp [val2]
  | b :: t => by
    intro h
    have hb : b < 2 := h b (by simp)
    have ht := val2_lt t (fun x hx => h x (by simp [hx]))
    simp only [val2, List.length_cons, pow_succ]
    nlinarith

set_option maxRecDepth 4096 in
theorem val2_byteBits : ∀ x, x < 256 → val2 (byteBits x) = x := by decide

theorem val2_bits5 : ∀ d, d < 32 → val2 (bits5 d) = d := by decide

theorem bits5_val2 (l : List Nat) (hl : ∀ x ∈ l, x < 2) (hlen : l.length = 5) :
    bits5 (val2 l) = l := by
  rcases l with _ | ⟨a, l⟩; · simp at hlen
  rcases l with _ | ⟨b, l⟩; · simp at hlen
  rcases l with _ | ⟨c, l⟩; · simp at hlen
  rcases l with _ | ⟨d, l⟩; · simp at hlen
  rcases l with _ | ⟨e, l⟩; · simp at hlen
  rcases l with _ | ⟨f, l⟩
  swap
  · simp only [List.length_cons] at hlen; omega
  have ha : a < 2 := hl a (by simp)
  have hb : b < 2 := hl b (by simp)
  have hc : c < 2 := hl c (by simp)
  have hd : d < 2 := hl d (by simp)
  have he : e < 2 := hl e (by simp)
  simp only [val2, bits5, List.length_cons, List.length_nil, List.cons.injEq, and_true]
  norm_num
  omega

theorem groups5_nil : groups5 [] = [] := by rw [groups5]

theorem bytesOfBits_nil : bytesOfBits [] = [] := by rw [bytesOfBits]

theorem groups5_length (s : List Nat) : (groups5 s).length = (s.length + 4) / 5 := by
  match s with
  | [] => rw [groups5_nil]; rfl
  | b :: t =>
    rw [groups5]
    simp only [List.length_cons, groups5_length (t.drop 4), List.length_drop]
    omega
termination_by s.length
decreasing_by simp only [List.length_drop, List.length_cons]; omega

theorem groups5_lt (s : List Nat) (hs : ∀ x ∈ s, x < 2) : ∀ g ∈ groups5 s, g < 32 := by
  match s with
  | [] => simp [groups5]
  | b :: t =>
    rw [groups5]
    intro g hg
    rcases List.mem_cons.1 hg with rfl | hg
    · have hlen : ((b :: (t ++ [0, 0, 0, 0])).take 5).length = 5 := by
        simp [List.length_take]
      have hmem : ∀ x ∈ (b :: (t ++ [0, 0, 0, 0])).take 5, x < 2 := by
        intro x hx
        rcases List.mem_cons.1 (List.mem_of_mem_take hx) with rfl | h2
        · exact hs x (by simp)
        · rcases List.mem_append.1 h2 with h3 | h3
          · exact hs x (by simp [h3])
          · simp only [List.mem_cons, List.not_mem_nil, or_false] at h3
            omega
      have := val2_lt _ hmem
      rwa [hlen] at this
    · exact groups5_lt (t.drop 4)
        (fun x hx => hs x (List.mem_cons_of_mem b (List.mem_of_mem_drop hx))) g hg
termination_by s.length
decreasing_by simp only [List.length_drop, List.length_cons]; omega

theorem bitsOfDigits_groups5 (s : List Nat) (hs : ∀ x ∈ s, x < 2) :
    ∃ z, (∀ x ∈ z, x = 0) ∧ bitsOfDigits (groups5 s) = s ++ z := by
  match s with
  | [] => exact ⟨[], by simp, by rw [groups5_nil]; rfl⟩
  | b :: t =>
    rw [groups5]
    rw [show bitsOfDigits (val2 ((b :: (t ++ [0, 0, 0, 0])).take 5) :: groups5 (t.drop 4))
          = bits5 (val2 ((b :: (t ++ [0, 0, 0, 0])).take 5)) ++ bitsOfDigits (groups5 (t.drop 4))
        from rfl]
    by_cases hlen : 4 ≤ t.length
    · have htake : (b :: (t ++ [0, 0, 0, 0])).take 5 = b :: t.take 4 := by
        rw [List.take_succ_cons, List.take_append_of_le_length hlen]
      obtain ⟨z, hz0, hz⟩ := bitsOfDigits_groups5 (t.drop 4)
        (fun x hx => hs x (List.mem_cons_of_mem b (List.mem_of_mem_drop hx)))
      refine ⟨z, hz0, ?_⟩
      rw [htake, hz, bits5_val2]
      · simp only [List.cons_append]
        rw [← List.append_assoc, List.take_append_drop]
      · intro x hx
        rcases List.mem_cons.1 hx with rfl | h2
        · exact hs x (by simp)
        · exact hs x (by simp [List.mem_of_mem_take h2])
      · simp only [List.length_cons, List.length_take]
        omega
    · have hdrop : t.drop 4 = [] := List.drop_eq_nil_of_le (by omega)
      have hpad : (([0, 0, 0, 0] : List Nat)).take (4 - t.length)
          = List.replicate (4 - t.length) 0 := by
        rw [show ([0, 0, 0, 0] : List Nat) = List.replicate 4 0 from rfl, List.take_replicate]
        congr 1
        omega
      have htake : (b :: (t ++ [0, 0, 0, 0])).take 5
          = b :: (t ++ List.replicate (4 - t.length) 0) := by
        rw [List.take_succ_cons, List.take_append_eq_append_take,
          List.take_of_length_le (by omega), hpad]
      refine ⟨List.replicate (4 - t.length) 0, fun x hx => List.eq_of_mem_replicate hx, ?_⟩
      rw [hdrop, htake, groups5_nil]
      rw [show bitsOfDigits ([] : List Nat) = [] from rfl, List.append_nil, bits5_val2]
      · simp
      · intro x hx
        rcases List.mem_cons.1 hx with rfl | h2
        · exact hs x (by simp)
        · rcases List.mem_append.1 h2 with h3 | h3
          · exact hs x (by simp [h3])
          · have := List.eq_of_mem_replicate h3
            omega
      · simp only [List.length_cons, List.length_append, List.length_replicate]
        omega
termination_by s.length
decreasing_by simp only [List.length_drop, List.length_cons]; omega

theorem bytesOfBits_toBits (b : List Nat) (hb : ∀ x ∈ b, x < 256) :
    bytesOfBits (toBits b) = b := by
  induction b with
  | nil => rw [show toBits [] = [] from rfl, bytesOfBits_nil]
  | cons x t ih =>
    have hx : x < 256 := hb x (by simp)
    show bytesOfBits (byteBits x ++ toBits t) = x :: t
    rw [show byteBits x ++ toBits t
          = x / 128 % 2 :: ([x / 64 % 2, x / 32 % 2, x / 16 % 2, x / 8 % 2,
              x / 4 % 2, x / 2 % 2, x % 2] ++ toBits t) from rfl]
    rw [bytesOfBits]
    rw [List.take_succ_cons, List.take_append_of_le_length (by simp),
      List.drop_append_of_le_length (by simp)]
    rw [show ([x / 64 % 2, x / 32 % 2, x / 16 % 2, x / 8 % 2,
          x / 4 % 2, x / 2 % 2, x % 2] : List Nat).take 7
        = [x / 64 % 2, x / 32 % 2, x / 16 % 2, x / 8 % 2, x / 4 % 2, x / 2 % 2, x % 2] from rfl]
    rw [show ([x / 64 % 2, x / 32 % 2, x / 16 % 2, x / 8 % 2,
          x / 4 % 2, x / 2 % 2, x % 2] : List Nat).drop 7 = [] from rfl]
    rw [show (x / 128 % 2 :: [x / 64 % 2, x / 32 % 2, x / 16 % 2, x / 8 % 2,
          x / 4 % 2, x / 2 % 2, x % 2] : List Nat) = byteBits x from rfl]
    rw [List.nil_append, val2_byteBits x hx, ih (fun y hy => hb y (by simp [hy]))]

/-! ### Correctness of the encode loop against the bitstream semantics -/

theorem val2_five (a b c d e : Nat) : val2 [a, b, c, d, e] = 16 * a + 8 * b + 4 * c + 2 * d + e := by
  simp only [val2, List.length_cons, List.length_nil]
  norm_num
  ring

set_option maxRecDepth 8192 in
theorem encDigitLow : ∀ I, I < 4 → ∀ c, c < 256 →
    (c >>> (8 - (I + 5))) &&& 0x1F = val2 (((byteBits c).drop I).take 5) := by decide

theorem encDigitHigh4 (c nx : Nat) (hc : c < 256) (hn : nx < 256) :
    ((c &&& (0xFF >>> 4)) <<< ((4 + 5) % 8)) ||| (nx >>> (8 - (4 + 5) % 8))
      = val2 (((byteBits c).drop 4 ++ byteBits nx).take 5) := by
  rw [show ((byteBits c).drop 4 ++ byteBits nx).take 5
      = [c / 8 % 2, c / 4 % 2, c / 2 % 2, c % 2, nx / 128 % 2] from rfl, val2_five]
  rw [show (0xFF : Nat) >>> 4 = 2 ^ 4 - 1 from rfl, Nat.and_pow_two_sub_one_eq_mod]
  rw [show (8 - (4 + 5) % 8) = 7 from rfl, Nat.shiftRight_eq_div_pow]
  rw [show ((4 + 5) % 8) = 1 from rfl, Nat.shiftLeft_eq]
  rw [show c % 2 ^ 4 * 2 ^ 1 = 2 ^ 1 * (c % 2 ^ 4) by ring]
  rw [← Nat.mul_add_lt_is_or (by omega)]
  omega

theorem encDigitHigh5 (c nx : Nat) (hc : c < 256) (hn : nx < 256) :
    ((c &&& (0xFF >>> 5)) <<< ((5 + 5) % 8)) ||| (nx >>> (8 - (5 + 5) % 8))
      = val2 (((byteBits c).drop 5 ++ byteBits nx).take 5) := by
  rw [show ((byteBits c).drop 5 ++ byteBits nx).take 5
      = [c / 4 % 2, c / 2 % 2, c % 2, nx / 128 % 2, nx / 64 % 2] from rfl, val2_five]
  rw [show (0xFF : Nat) >>> 5 = 2 ^ 3 - 1 from rfl, Nat.and_pow_two_sub_one_eq_mod]
  rw [show (8 - (5 + 5) % 8) = 6 from rfl, Nat.shiftRight_eq_div_pow]
  rw [show ((5 + 5) % 8) = 2 from rfl, Nat.shiftLeft_eq]
  rw [show c % 2 ^ 3 * 2 ^ 2 = 2 ^ 2 * (c % 2 ^ 3) by ring]
  rw [← Nat.mul_add_lt_is_or (by omega)]
  omega

theorem encDigitHigh6 (c nx : Nat) (hc : c < 256) (hn : nx < 256) :
    ((c &&& (0xFF >>> 6)) <<< ((6 + 5) % 8)) ||| (nx >>> (8 - (6 + 5) % 8))
      = val2 (((byteBits c).drop 6 ++ byteBits nx).take 5) := by
  rw [show ((byteBits c).drop 6 ++ byteBits nx).take 5
      = [c / 2 % 2, c % 2, nx / 128 % 2, nx / 64 % 2, nx / 32 % 2] from rfl, val2_five]
  rw [show (0xFF : Nat) >>> 6 = 2 ^ 2 - 1 from rfl, Nat.and_pow_two_sub_one_eq_mod]
  rw [show (8 - (6 + 5) % 8) = 5 from rfl, Nat.shiftRight_eq_div_pow]
  rw [show ((6 + 5) % 8) = 3 from rfl, Nat.shiftLeft_eq]
  rw [show c % 2 ^ 2 * 2 ^ 3 = 2 ^ 3 * (c % 2 ^ 2) by ring]
  rw [← Nat.mul_add_lt_is_or (by omega)]
  omega

theorem encDigitHigh7 (c nx : Nat) (hc : c < 256) (hn : nx < 256) :
    ((c &&& (0xFF >>> 7)) <<< ((7 + 5) % 8)) ||| (nx >>> (8 - (7 + 5) % 8))
      = val2 (((byteBits c).drop 7 ++ byteBits nx).take 5) := by
  rw [show ((byteBits c).drop 7 ++ byteBits nx).take 5
      = [c % 2, nx / 128 % 2, nx / 64 % 2, nx / 32 % 2, nx / 16 % 2] from rfl, val2_five]
  rw [show (0xFF : Nat) >>> 7 = 2 ^ 1 - 1 from rfl, Nat.and_pow_two_sub_one_eq_mod]
  rw [show (8 - (7 + 5) % 8) = 4 from rfl, Nat.shiftRight_eq_div_pow]
  rw [show ((7 + 5) % 8) = 4 from rfl, Nat.shiftLeft_eq]
  rw [show c % 2 ^ 1 * 2 ^ 4 = 2 ^ 4 * (c % 2 ^ 1) by ring]
  rw [← Nat.mul_add_lt_is_or (by omega)]
  omega

theorem toBits_drop_at (b : List Nat) : ∀ i, i < b.length →
    (toBits b).drop (8 * i) = byteBits (b.getD i 0) ++ toBits (b.drop (i + 1)) := by
  induction b with
  | nil => intro i h; simp at h
  | cons x t ih =>
    intro i h
    match i with
    | 0 => simp [toBits]
    | i + 1 =>
      rw [show toBits (x :: t) = byteBits x ++ toBits t from rfl]
      rw [show 8 * (i + 1) = (byteBits x).length + 8 * i by rw [byteBits_length]; ring]
      rw [List.drop_append]
      rw [ih i (by simp only [List.length_cons] at h; omega)]
      rfl

theorem getD_lt_of_mem (b : List Nat) (i : Nat) (hi : i < b.length) (hb : ∀ x ∈ b, x < 256) :
    b.getD i 0 < 256 := by
  apply hb
  rw [List.getD_eq_getElem?_getD, List.getElem?_eq_getElem hi]
  exact List.getElem_mem hi

theorem encodeLoop_nil (b : List Nat) (i index : Nat) (h : b.length ≤ i) :
    encodeLoop b i index = [] := by
  rw [encodeLoop, dif_neg (by omega)]

/-- Restatement of the `groups5` equation on a nonempty list. -/
theorem groups5_eq (l : List Nat) (h : l ≠ []) :
    groups5 l = val2 ((l ++ [0, 0, 0, 0]).take 5) :: groups5 (l.drop 5) := by
  match l with
  | a :: t => rw [groups5]; rfl


theorem toBits_drop (b : List Nat) : ∀ k, (toBits b).drop (8 * k) = toBits (b.drop k) := by
  induction b with
  | nil => intro k; simp [toBits]
  | cons x t ih =>
    intro k
    match k with
    | 0 => simp
    | k + 1 =>
      rw [show toBits (x :: t) = byteBits x ++ toBits t from rfl]
      rw [show 8 * (k + 1) = (byteBits x).length + 8 * k by rw [byteBits_length]; ring]
      rw [List.drop_append, ih k]
      rfl

theorem encodeLoop_spec (b : List Nat) (hb : ∀ x ∈ b, x < 256) :
    ∀ fuel i index, 2 * (b.length - i) + (7 - index) / 4 ≤ fuel → index ≤ 7 →
    encodeLoop b i index = (groups5 ((toBits b).drop (8 * i + index))).map base32char := by
  intro fuel
  induction fuel with
  | zero =>
    intro i index hf h7
    have hi : b.length ≤ i := by omega
    rw [encodeLoop_nil b i index hi,
      List.drop_eq_nil_of_le (by rw [toBits_length]; omega), groups5_nil]
    rfl
  | succ fuel ih =>
    intro i index hf h7
    by_cases hi : i < b.length
    · have hc : (b[i]?.getD 0) < 256 := by
        rw [← List.getD_eq_getElem?_getD]; exact getD_lt_of_mem b i hi hb
      have key : ∀ k, k ≤ 8 → (toBits b).drop (8 * i + k)
          = (byteBits (b[i]?.getD 0)).drop k ++ toBits (b.drop (i + 1)) := by
        intro k hk
        rw [← List.drop_drop k (8 * i), toBits_drop_at b i hi, List.getD_eq_getElem?_getD,
          List.drop_append_of_le_length (by rw [byteBits_length]; omega)]
      interval_cases index
      · have k0 := key 0 (by omega)
        norm_num at k0
        rw [encodeLoop, dif_pos hi]
        norm_num
        rw [k0, groups5_eq _ (by simp [byteBits]), List.map_cons]
        congr 1
        · congr 1
          rw [List.append_assoc, List.take_append_of_le_length (by rw [byteBits_length]; omega)]
          have h := encDigitLow 0 (by decide) _ hc
          norm_num at h
          exact h
        · rw [ih i 5 (by omega) (by decide), key 5 (by omega),
            List.drop_append_of_le_length (by rw [byteBits_length]; omega)]
      · have k1 := key 1 (by omega)
        rw [encodeLoop, dif_pos hi]
        norm_num
        rw [k1, groups5_eq _ (by simp [byteBits]), List.map_cons]
        congr 1
        · congr 1
          rw [List.append_assoc,
            List.take_append_of_le_length (by simp only [List.length_drop, byteBits_length]; omega)]
          have h := encDigitLow 1 (by decide) _ hc
          norm_num at h
          exact h
        · rw [ih i 6 (by omega) (by decide), key 6 (by omega)]
          congr 1
      · have k2 := key 2 (by omega)
        rw [encodeLoop, dif_pos hi]
        norm_num
        rw [k2, groups5_eq _ (by simp [byteBits]), List.map_cons]
        congr 1
        · congr 1
          rw [List.append_assoc,
            List.take_append_of_le_length (by simp only [List.length_drop, byteBits_length]; omega)]
          have h := encDigitLow 2 (by decide) _ hc
          norm_num at h
          exact h
        · rw [ih i 7 (by omega) (by decide), key 7 (by omega)]
          congr 1
      · have k3 := key 3 (by omega)
        rw [encodeLoop, dif_pos hi]
        norm_num
        rw [k3, groups5_eq _ (by simp [byteBits]), List.map_cons]
        congr 1
        · congr 1
          rw [List.append_assoc,
            List.take_append_of_le_length (by simp only [List.length_drop, byteBits_length]; omega)]
          have h := encDigitLow 3 (by decide) _ hc
          norm_num at h
          exact h
        · rw [ih (i + 1) 0 (by omega) (by decide)]
          rw [show 8 * (i + 1) + 0 = 8 * (i + 1) by ring, toBits_drop]
          congr 1
      · -- index = 4
        have k4 := key 4 (by omega)
        rw [encodeLoop, dif_pos hi]
        norm_num
        by_cases hnext : i + 1 < b.length
        · have hn : (b[i + 1]?.getD 0) < 256 := by
            rw [← List.getD_eq_getElem?_getD]; exact getD_lt_of_mem b (i + 1) hnext hb
          have hT : toBits (b.drop (i + 1)) = byteBits (b[i + 1]?.getD 0) ++ toBits (b.drop (i + 2)) := by
            conv_lhs => rw [List.drop_eq_getElem_cons hnext]
            rw [show ∀ (x : Nat) (t : List Nat), toBits (x :: t) = byteBits x ++ toBits t
              from fun _ _ => rfl]
            rw [List.getElem?_eq_getElem hnext, Option.getD_some]
          rw [if_pos hnext]
          rw [k4, hT, groups5_eq _ (by simp [byteBits]), List.map_cons]
          congr 1
          · congr 1
            have h := encDigitHigh4 _ _ hc hn
            norm_num [byteBits] at h ⊢
            exact h
          · rw [ih (i + 1) 1 (by omega) (by decide),
              ← List.drop_drop 1 (8 * (i + 1)), toBits_drop, hT]
            congr 1
        · have hT0 : toBits (b.drop (i + 1)) = [] := by
            rw [List.drop_eq_nil_of_le (by omega)]
            rfl
          rw [if_neg hnext]
          rw [k4, hT0, groups5_eq _ (by simp [byteBits]), List.map_cons]
          congr 1
          · congr 1
            have h := encDigitHigh4 _ 0 hc (by omega)
            norm_num [byteBits] at h ⊢
            exact h
          · rw [encodeLoop_nil b (i + 1) 1 (by omega)]
            rw [show (((byteBits (b[i]?.getD 0)).drop 4 ++ ([] : List Nat)).drop 5) = []
              from by simp [byteBits]]
            rw [groups5_nil]
            rfl
      · -- index = 5
        have k5 := key 5 (by omega)
        rw [encodeLoop, dif_pos hi]
        norm_num
        by_cases hnext : i + 1 < b.length
        · have hn : (b[i + 1]?.getD 0) < 256 := by
            rw [← List.getD_eq_getElem?_getD]; exact getD_lt_of_mem b (i + 1) hnext hb
          have hT : toBits (b.drop (i + 1)) = byteBits (b[i + 1]?.getD 0) ++ toBits (b.drop (i + 2)) := by
            conv_lhs => rw [List.drop_eq_getElem_cons hnext]
            rw [show ∀ (x : Nat) (t : List Nat), toBits (x :: t) = byteBits x ++ toBits t
              from fun _ _ => rfl]
            rw [List.getElem?_eq_getElem hnext, Option.getD_some]
          rw [if_pos hnext]
          rw [k5, hT, groups5_eq _ (by simp [byteBits]), List.map_cons]
          congr 1
          · congr 1
            have h := encDigitHigh5 _ _ hc hn
            norm_num [byteBits] at h ⊢
            exact h
          · rw [ih (i + 1) 2 (by omega) (by decide),
              ← List.drop_drop 2 (8 * (i + 1)), toBits_drop, hT]
            congr 1
        · have hT0 : toBits (b.drop (i + 1)) = [] := by
            rw [List.drop_eq_nil_of_le (by omega)]
            rfl
          rw [if_neg hnext]
          rw [k5, hT0, groups5_eq _ (by simp [byteBits]), List.map_cons]
          congr 1
          · congr 1
            have h := encDigitHigh5 _ 0 hc (by omega)
            norm_num [byteBits] at h ⊢
            exact h
          · rw [encodeLoop_nil b (i + 1) 2 (by omega)]
            rw [show (((byteBits (b[i]?.getD 0)).drop 5 ++ ([] : List Nat)).drop 5) = []
              from by simp [byteBits]]
            rw [groups5_nil]
            rfl
      · -- index = 6
        have k6 := key 6 (by omega)
        rw [encodeLoop, dif_pos hi]
        norm_num
        by_cases hnext : i + 1 < b.length
        · have hn : (b[i + 1]?.getD 0) < 256 := by
            rw [← List.getD_eq_getElem?_getD]; exact getD_lt_of_mem b (i + 1) hnext hb
          have hT : toBits (b.drop (i + 1)) = byteBits (b[i + 1]?.getD 0) ++ toBits (b.drop (i + 2)) := by
            conv_lhs => rw [List.drop_eq_getElem_cons hnext]
            rw [show ∀ (x : Nat) (t : List Nat), toBits (x :: t) = byteBits x ++ toBits t
              from fun _ _ => rfl]
            rw [List.getElem?_eq_getElem hnext, Option.getD_some]
          rw [if_pos hnext]
          rw [k6, hT, groups5_eq _ (by simp [byteBits]), List.map_cons]
          congr 1
          · congr 1
            have h := encDigitHigh6 _ _ hc hn
            norm_num [byteBits] at h ⊢
            exact h
          · rw [ih (i + 1) 3 (by omega) (by decide),
              ← List.drop_drop 3 (8 * (i + 1)), toBits_drop, hT]
            congr 1
        · have hT0 : toBits (b.drop (i + 1)) = [] := by
            rw [List.drop_eq_nil_of_le (by omega)]
            rfl
          rw [if_neg hnext]
          rw [k6, hT0, groups5_eq _ (by simp [byteBits]), List.map_cons]
          congr 1
          · congr 1
            have h := encDigitHigh6 _ 0 hc (by omega)
            norm_num [byteBits] at h ⊢
            exact h
          · rw [encodeLoop_nil b (i + 1) 3 (by omega)]
            rw [show (((byteBits (b[i]?.getD 0)).drop 6 ++ ([] : List Nat)).drop 5) = []
              from by simp [byteBits]]
            rw [groups5_nil]
            rfl
      · -- index = 7
        have k7 := key 7 (by omega)
        rw [encodeLoop, dif_pos hi]
        norm_num
        by_cases hnext : i + 1 < b.length
        · have hn : (b[i + 1]?.getD 0) < 256 := by
            rw [← List.getD_eq_getElem?_getD]; exact getD_lt_of_mem b (i + 1) hnext hb
          have hT : toBits (b.drop (i + 1)) = byteBits (b[i + 1]?.getD 0) ++ toBits (b.drop (i + 2)) := by
            conv_lhs => rw [List.drop_eq_getElem_cons hnext]
            rw [show ∀ (x : Nat) (t : List Nat), toBits (x :: t) = byteBits x ++ toBits t
              from fun _ _ => rfl]
            rw [List.getElem?_eq_getElem hnext, Option.getD_some]
          rw [if_pos hnext]
          rw [k7, hT, groups5_eq _ (by simp [byteBits]), List.map_cons]
          congr 1
          · congr 1
            have h := encDigitHigh7 _ _ hc hn
            norm_num [byteBits] at h ⊢
            exact h
          · rw [ih (i + 1) 4 (by omega) (by decide),
              ← List.drop_drop 4 (8 * (i + 1)), toBits_drop, hT]
            congr 1
        · have hT0 : toBits (b.drop (i + 1)) = [] := by
            rw [List.drop_eq_nil_of_le (by omega)]
            rfl
          rw [if_neg hnext]
          rw [k7, hT0, groups5_eq _ (by simp [byteBits]), List.map_cons]
          congr 1
          · congr 1
            have h := encDigitHigh7 _ 0 hc (by omega)
            norm_num [byteBits] at h ⊢
            exact h
          · rw [encodeLoop_nil b (i + 1) 4 (by omega)]
            rw [show (((byteBits (b[i]?.getD 0)).drop 7 ++ ([] : List Nat)).drop 5) = []
              from by simp [byteBits]]
            rw [groups5_nil]
            rfl
    · rw [encodeLoop_nil b i index (by omega),
        List.drop_eq_nil_of_le (by rw [toBits_length]; omega), groups5_nil]
      rfl


/-! ### Correctness of the decode loop against the bitstream semantics -/

theorem partialBits_length (p I : Nat) (h : I ≤ 8) : (partialBits p I).length = I := by
  simp only [partialBits, List.length_drop, byteBits_length]
  omega

set_option maxRecDepth 40000 in
theorem decodeLowAbsorb : ∀ I, I < 3 → ∀ p, p < 2 ^ I → ∀ d, d < 32 →
    ((p <<< (8 - I)) ||| (d <<< (8 - (I + 5) % 8))) % 256 = (32 * p + d) <<< (8 - ((I + 5) % 8))
      ∧ partialBits p I ++ bits5 d = partialBits (32 * p + d) (I + 5)
      ∧ 32 * p + d < 2 ^ (I + 5) := by decide

set_option maxRecDepth 40000 in
theorem decodeByteFill : ∀ p, p < 8 → ∀ d, d < 32 →
    ((p <<< 5) ||| d) % 256 = val2 (partialBits p 3 ++ bits5 d) := by decide

set_option maxRecDepth 40000 in
theorem val2_partialBits : ∀ I, I < 8 → ∀ p, p < 2 ^ I → val2 (partialBits p I) = p := by decide

set_option maxRecDepth 40000 in
theorem bits5_drop_high : ∀ I, 4 ≤ I → I < 8 → ∀ d, d < 32 →
    (bits5 d).drop (8 - I) = partialBits (d % 2 ^ (I - 3)) (I - 3) := by decide

set_option maxRecDepth 40000 in
theorem val2_bits5_take : ∀ I, 4 ≤ I → I < 8 → ∀ d, d < 32 →
    val2 ((bits5 d).take (8 - I)) = d >>> ((I + 5) % 8) := by decide

set_option maxRecDepth 40000 in
theorem decodeHighShiftMod : ∀ I, 4 ≤ I → I < 8 → ∀ d, d < 32 →
    (d <<< (8 - (I + 5) % 8)) % 256 = (d % 2 ^ (I - 3)) <<< (8 - (I - 3)) := by decide

/-- Splitting the pending-plus-digit bits at the byte boundary, `4 ≤ I ≤ 7`. -/
theorem decodeHighSplit (I : Nat) (h4 : 4 ≤ I) (h8 : I < 8) (p : Nat) (hp : p < 2 ^ I)
    (d : Nat) (hd : d < 32) :
    partialBits p I ++ bits5 d
        = (partialBits p I ++ bits5 d).take 8 ++ partialBits (d % 2 ^ (I - 3)) (I - 3)
      ∧ val2 ((partialBits p I ++ bits5 d).take 8)
        = ((p <<< (8 - I)) ||| (d >>> ((I + 5) % 8))) % 256 := by
  have hlen : (partialBits p I).length = I := partialBits_length p I (by omega)
  have hlen5 : (bits5 d).length = 5 := rfl
  have htake : (partialBits p I ++ bits5 d).take 8 = partialBits p I ++ (bits5 d).take (8 - I) := by
    rw [List.take_append_eq_append_take, List.take_of_length_le (by omega), hlen]
  have hdrop : (partialBits p I ++ bits5 d).drop 8 = (bits5 d).drop (8 - I) := by
    rw [List.drop_append_eq_append_drop, List.drop_eq_nil_of_le (by omega), hlen,
      List.nil_append]
  constructor
  · rw [htake, List.append_assoc]
    congr 1
    rw [← bits5_drop_high I h4 h8 d hd, List.take_append_drop]
  · rw [htake, val2_append, val2_partialBits I h8 p hp, val2_bits5_take I h4 h8 d hd]
    have hmin : ((bits5 d).take (8 - I)).length = 8 - I := by
      rw [List.length_take, hlen5]
      omega
    rw [hmin]
    have hb : d >>> ((I + 5) % 8) < 2 ^ (8 - I) := by
      rw [Nat.shiftRight_eq_div_pow]
      interval_cases I <;> norm_num <;> omega
    have hlt : 2 ^ (8 - I) * p + d >>> ((I + 5) % 8) < 256 := by
      rw [Nat.shiftRight_eq_div_pow]
      interval_cases I <;> norm_num at hp ⊢ <;> omega
    rw [Nat.shiftLeft_eq, show p * 2 ^ (8 - I) = 2 ^ (8 - I) * p by ring,
      ← Nat.mul_add_lt_is_or hb, Nat.mod_eq_of_lt hlt]


theorem getD_mid (B : List Nat) (x : Nat) (z : List Nat) :
    (B ++ x :: z).getD B.length 0 = x := by
  induction B with
  | nil => rfl
  | cons a t ih => simpa using ih

theorem set_mid (B : List Nat) (x v : Nat) (z : List Nat) :
    (B ++ x :: z).set B.length v = B ++ v :: z := by
  induction B with
  | nil => rfl
  | cons a t ih => simp [ih]

theorem bytesOfBits_eq8 (l : List Nat) (h : l.length = 8) : bytesOfBits l = [val2 l] := by
  match l with
  | a :: t =>
    rw [bytesOfBits, List.take_of_length_le (by omega),
      List.drop_eq_nil_of_le (by simp only [List.length_cons] at h; omega), bytesOfBits_nil]

theorem bytesOfBits_take_step (l8 X : List Nat) (h8 : l8.length = 8) (k : Nat) :
    bytesOfBits ((l8 ++ X).take (8 * (k + 1))) = val2 l8 :: bytesOfBits (X.take (8 * k)) := by
  rw [show 8 * (k + 1) = l8.length + 8 * k by omega, List.take_append]
  match l8, h8 with
  | a :: t, h8 =>
    have ht : t.length = 7 := by simp only [List.length_cons] at h8; omega
    rw [List.cons_append, bytesOfBits, List.take_succ_cons,
      List.take_append_of_le_length (by omega), List.take_of_length_le (by omega),
      List.drop_append_of_le_length (by omega), List.drop_eq_nil_of_le (by omega),
      List.nil_append]

theorem decodeChars_eq (cs : List Nat) : ∀ (index offset : Nat) (buf : List Nat) (oob : Bool),
    decodeChars cs index offset buf oob = decodeDigits (cs.filterMap validDigit) index offset buf oob := by
  induction cs with
  | nil => intro index offset buf oob; rfl
  | cons c rest ih =>
    intro index offset buf oob
    cases h : validDigit c with
    | none =>
      simp only [decodeChars, List.filterMap_cons, h]
      exact ih index offset buf oob
    | some d =>
      simp only [decodeChars, List.filterMap_cons, h, decodeDigits]
      cases hstep : decodeStep d index offset buf with
      | inr r => rfl
      | inl s => exact ih _ _ _ _


theorem orWrite_mid0 (B : List Nat) (x : Nat) (z : List Nat) (v : Nat) :
    orWrite (B ++ x :: z) B.length v = (B ++ ((x ||| v) % 256) :: z, false) := by
  rw [orWrite, if_pos (by simp only [List.length_append, List.length_cons]; omega)]
  rw [getD_mid, set_mid]

theorem orWrite_mid (B : List Nat) (x : Nat) (z : List Nat) (v off : Nat) (h : B.length = off) :
    orWrite (B ++ x :: z) off v = (B ++ ((x ||| v) % 256) :: z, false) := by
  rw [← h]
  exact orWrite_mid0 B x z v

theorem decodeDigits_spec :
    ∀ (ds : List Nat) (index offset p L : Nat) (B : List Nat) (oob : Bool),
    (∀ d ∈ ds, d < 32) → index ≤ 7 → p < 2 ^ index →
    B.length = offset → offset < L →
    8 * (L - offset) ≤ index + 5 * ds.length →
    decodeDigits ds index offset (B ++ (p <<< (8 - index)) :: List.replicate (L - offset - 1) 0) oob
      = (B ++ bytesOfBits ((partialBits p index ++ bitsOfDigits ds).take (8 * (L - offset))), oob) := by
  intro ds
  induction ds with
  | nil =>
    intro index offset p L B oob hds h7 hp hB hoL hbits
    exfalso
    simp only [List.length_nil] at hbits
    omega
  | cons d rest ih =>
    intro index offset p L B oob hds h7 hp hB hoL hbits
    have hd : d < 32 := hds d (by simp)
    have hrest : ∀ x ∈ rest, x < 32 := fun x hx => hds x (by simp [hx])
    simp only [List.length_cons] at hbits
    interval_cases index
    · -- index = 0
      have habs := decodeLowAbsorb 0 (by decide) p hp d hd
      norm_num at habs
      have hstep : decodeStep d 0 offset (B ++ (p <<< 8) :: List.replicate (L - offset - 1) 0)
          = Sum.inl (5, offset,
              B ++ ((32 * p + d) <<< 3) :: List.replicate (L - offset - 1) 0, false) := by
        rw [decodeStep]
        norm_num
        rw [orWrite_mid _ _ _ _ _ hB, habs.1]
      rw [show (8 : Nat) - 0 = 8 from rfl]
      simp only [decodeDigits, hstep, Bool.or_false]
      rw [show (32 * p + d) <<< 3 = (32 * p + d) <<< (8 - 5) from rfl]
      rw [ih 5 offset (32 * p + d) L B oob hrest (by omega) (by omega) hB hoL (by omega)]
      rw [show partialBits p 0 ++ bitsOfDigits (d :: rest)
          = partialBits p 0 ++ bits5 d ++ bitsOfDigits rest from by
        rw [List.append_assoc]; rfl]
      rw [habs.2.1]
    · -- index = 1
      have habs := decodeLowAbsorb 1 (by decide) p hp d hd
      norm_num at habs
      rw [show (8 : Nat) - 1 = 7 from rfl]
      have hstep : decodeStep d 1 offset (B ++ (p <<< 7) :: List.replicate (L - offset - 1) 0)
          = Sum.inl (6, offset,
              B ++ ((32 * p + d) <<< 2) :: List.replicate (L - offset - 1) 0, false) := by
        rw [decodeStep]
        norm_num
        rw [orWrite_mid _ _ _ _ _ hB, habs.1]
      simp only [decodeDigits, hstep, Bool.or_false]
      rw [show (32 * p + d) <<< 2 = (32 * p + d) <<< (8 - 6) from rfl]
      rw [ih 6 offset (32 * p + d) L B oob hrest (by omega) (by omega) hB hoL (by omega)]
      rw [show partialBits p 1 ++ bitsOfDigits (d :: rest)
          = partialBits p 1 ++ bits5 d ++ bitsOfDigits rest from by
        rw [List.append_assoc]; rfl]
      rw [habs.2.1]
    · -- index = 2
      have habs := decodeLowAbsorb 2 (by decide) p hp d hd
      norm_num at habs
      rw [show (8 : Nat) - 2 = 6 from rfl]
      have hstep : decodeStep d 2 offset (B ++ (p <<< 6) :: List.replicate (L - offset - 1) 0)
          = Sum.inl (7, offset,
              B ++ ((32 * p + d) <<< 1) :: List.replicate (L - offset - 1) 0, false) := by
        rw [decodeStep]
        norm_num
        rw [orWrite_mid _ _ _ _ _ hB, habs.1]
      simp only [decodeDigits, hstep, Bool.or_false]
      rw [show (32 * p + d) <<< 1 = (32 * p + d) <<< (8 - 7) from rfl]
      rw [ih 7 offset (32 * p + d) L B oob hrest (by omega) (by omega) hB hoL (by omega)]
      rw [show partialBits p 2 ++ bitsOfDigits (d :: rest)
          = partialBits p 2 ++ bits5 d ++ bitsOfDigits rest from by
        rw [List.append_assoc]; rfl]
      rw [habs.2.1]
    · -- index = 3
      rw [show (8 : Nat) - 3 = 5 from rfl]
      have hp8 : p < 8 := by norm_num at hp; exact hp
      have hBL : (B ++ (p <<< 5) :: List.replicate (L - offset - 1) 0).length = L := by
        simp only [List.length_append, List.length_cons, List.length_replicate]
        omega
      have hfill := decodeByteFill p hp8 d hd
      have hl8 : (partialBits p 3 ++ bits5 d).length = 8 := by
        rw [List.length_append, partialBits_length p 3 (by omega)]
        rfl
      have hstream : partialBits p 3 ++ bitsOfDigits (d :: rest)
          = (partialBits p 3 ++ bits5 d) ++ bitsOfDigits rest := by
        rw [List.append_assoc]
        rfl
      by_cases hbreak : offset + 1 ≥ L
      · have hstep : decodeStep d 3 offset (B ++ (p <<< 5) :: List.replicate (L - offset - 1) 0)
            = Sum.inr (B ++ (((p <<< 5) ||| d) % 256) :: List.replicate (L - offset - 1) 0, false) := by
          rw [decodeStep]
          norm_num
          rw [orWrite_mid _ _ _ _ _ hB, if_pos (by omega)]
        simp only [decodeDigits, hstep, Bool.or_false]
        rw [show L - offset - 1 = 0 by omega, List.replicate_zero]
        rw [show 8 * (L - offset) = 8 * (0 + 1) by omega, hstream,
          bytesOfBits_take_step _ _ hl8 0]
        simp only [Nat.mul_zero, List.take_zero, bytesOfBits_nil]
        rw [hfill]
      · have hstep : decodeStep d 3 offset (B ++ (p <<< 5) :: List.replicate (L - offset - 1) 0)
            = Sum.inl (0, offset + 1,
                B ++ (((p <<< 5) ||| d) % 256) :: List.replicate (L - offset - 1) 0, false) := by
          rw [decodeStep]
          norm_num
          rw [orWrite_mid _ _ _ _ _ hB, if_neg (by omega)]
        simp only [decodeDigits, hstep, Bool.or_false]
        rw [show (B ++ (((p <<< 5) ||| d) % 256) :: List.replicate (L - offset - 1) 0)
            = (B ++ [((p <<< 5) ||| d) % 256]) ++ (0 <<< (8 - 0)) :: List.replicate (L - (offset + 1) - 1) 0 from by
          rw [show (0 : Nat) <<< (8 - 0) = 0 from rfl,
            show L - offset - 1 = (L - (offset + 1) - 1) + 1 by omega, List.replicate_succ]
          simp]
        rw [ih 0 (offset + 1) 0 L (B ++ [((p <<< 5) ||| d) % 256]) oob hrest (by decide) (by decide)
          (by simp [hB]) (by omega) (by omega)]
        rw [hstream, show 8 * (L - offset) = 8 * ((L - (offset + 1)) + 1) by omega,
          bytesOfBits_take_step _ _ hl8]
        rw [hfill]
        rw [show partialBits 0 0 ++ bitsOfDigits rest = bitsOfDigits rest from rfl]
        simp
    · -- index = 4
      rw [show (8 : Nat) - 4 = 4 from rfl]
      have hsplit := decodeHighSplit 4 (by decide) (by decide) p hp d hd
      have hshift := decodeHighShiftMod 4 (by decide) (by decide) d hd
      norm_num at hsplit hshift
      have hl8 : ((partialBits p 4 ++ bits5 d).take 8).length = 8 := by
        rw [List.length_take, List.length_append, partialBits_length p 4 (by omega)]
        rfl
      have hstream : partialBits p 4 ++ bitsOfDigits (d :: rest)
          = (partialBits p 4 ++ bits5 d).take 8
            ++ (partialBits (d % 2) 1 ++ bitsOfDigits rest) := by
        conv_lhs => rw [show partialBits p 4 ++ bitsOfDigits (d :: rest)
            = (partialBits p 4 ++ bits5 d) ++ bitsOfDigits rest from by
          rw [List.append_assoc]; rfl]
        conv_lhs => rw [hsplit.1]
        rw [List.append_assoc]
      by_cases hbreak : offset + 1 ≥ L
      · have hstep : decodeStep d 4 offset (B ++ (p <<< 4) :: List.replicate (L - offset - 1) 0)
            = Sum.inr (B ++ (((p <<< 4) ||| (d >>> 1)) % 256) :: List.replicate (L - offset - 1) 0,
                false) := by
          rw [decodeStep]
          norm_num
          rw [orWrite_mid _ _ _ _ _ hB, if_pos (by omega)]
        simp only [decodeDigits, hstep, Bool.or_false]
        rw [show L - offset - 1 = 0 by omega, List.replicate_zero]
        rw [hstream, show 8 * (L - offset) = 8 * (0 + 1) by omega,
          bytesOfBits_take_step _ _ hl8 0]
        simp only [Nat.mul_zero, List.take_zero, bytesOfBits_nil]
        rw [hsplit.2]
      · have hstep : decodeStep d 4 offset (B ++ (p <<< 4) :: List.replicate (L - offset - 1) 0)
            = Sum.inl (1, offset + 1,
                (B ++ [((p <<< 4) ||| (d >>> 1)) % 256]) ++ ((d % 2) <<< 7)
                  :: List.replicate (L - (offset + 1) - 1) 0, false) := by
          rw [decodeStep]
          norm_num
          rw [orWrite_mid _ _ _ _ _ hB, if_neg (by omega)]
          rw [show B ++ (((p <<< 4) ||| (d >>> 1)) % 256) :: List.replicate (L - offset - 1) 0
              = (B ++ [((p <<< 4) ||| (d >>> 1)) % 256]) ++ (0 : Nat)
                :: List.replicate (L - (offset + 1) - 1) 0 from by
            rw [show L - offset - 1 = (L - (offset + 1) - 1) + 1 by omega, List.replicate_succ]
            simp]
          rw [orWrite_mid _ _ _ _ _ (by simp [hB])]
          rw [show ((0 : Nat) ||| d <<< 7) % 256 = (d % 2) <<< 7 from by
            rw [Nat.zero_or]
            exact hshift]
          simp [List.append_assoc]
        simp only [decodeDigits, hstep, Bool.or_false]
        rw [show (B ++ [((p <<< 4) ||| (d >>> 1)) % 256]) ++ ((d % 2) <<< 7)
              :: List.replicate (L - (offset + 1) - 1) 0
            = (B ++ [((p <<< 4) ||| (d >>> 1)) % 256]) ++ ((d % 2) <<< (8 - 1))
              :: List.replicate (L - (offset + 1) - 1) 0 from rfl]
        rw [ih 1 (offset + 1) (d % 2) L (B ++ [((p <<< 4) ||| (d >>> 1)) % 256]) oob hrest
          (by decide) (by omega) (by simp [hB]) (by omega) (by omega)]
        rw [hstream, show 8 * (L - offset) = 8 * ((L - (offset + 1)) + 1) by omega,
          bytesOfBits_take_step _ _ hl8]
        rw [hsplit.2]
        simp
    · -- index = 5
      rw [show (8 : Nat) - 5 = 3 from rfl]
      have hsplit := decodeHighSplit 5 (by decide) (by decide) p hp d hd
      have hshift := decodeHighShiftMod 5 (by decide) (by decide) d hd
      norm_num at hsplit hshift
      have hl8 : ((partialBits p 5 ++ bits5 d).take 8).length = 8 := by
        rw [List.length_take, List.length_append, partialBits_length p 5 (by omega)]
        rfl
      have hstream : partialBits p 5 ++ bitsOfDigits (d :: rest)
          = (partialBits p 5 ++ bits5 d).take 8
            ++ (partialBits (d % 4) 2 ++ bitsOfDigits rest) := by
        conv_lhs => rw [show partialBits p 5 ++ bitsOfDigits (d :: rest)
            = (partialBits p 5 ++ bits5 d) ++ bitsOfDigits rest from by
          rw [List.append_assoc]; rfl]
        conv_lhs => rw [hsplit.1]
        rw [List.append_assoc]
      by_cases hbreak : offset + 1 ≥ L
      · have hstep : decodeStep d 5 offset (B ++ (p <<< 3) :: List.replicate (L - offset - 1) 0)
            = Sum.inr (B ++ (((p <<< 3) ||| (d >>> 2)) % 256) :: List.replicate (L - offset - 1) 0,
                false) := by
          rw [decodeStep]
          norm_num
          rw [orWrite_mid _ _ _ _ _ hB, if_pos (by omega)]
        simp only [decodeDigits, hstep, Bool.or_false]
        rw [show L - offset - 1 = 0 by omega, List.replicate_zero]
        rw [hstream, show 8 * (L - offset) = 8 * (0 + 1) by omega,
          bytesOfBits_take_step _ _ hl8 0]
        simp only [Nat.mul_zero, List.take_zero, bytesOfBits_nil]
        rw [hsplit.2]
      · have hstep : decodeStep d 5 offset (B ++ (p <<< 3) :: List.replicate (L - offset - 1) 0)
            = Sum.inl (2, offset + 1,
                (B ++ [((p <<< 3) ||| (d >>> 2)) % 256]) ++ ((d % 4) <<< 6)
                  :: List.replicate (L - (offset + 1) - 1) 0, false) := by
          rw [decodeStep]
          norm_num
          rw [orWrite_mid _ _ _ _ _ hB, if_neg (by omega)]
          rw [show B ++ (((p <<< 3) ||| (d >>> 2)) % 256) :: List.replicate (L - offset - 1) 0
              = (B ++ [((p <<< 3) ||| (d >>> 2)) % 256]) ++ (0 : Nat)
                :: List.replicate (L - (offset + 1) - 1) 0 from by
            rw [show L - offset - 1 = (L - (offset + 1) - 1) + 1 by omega, List.replicate_succ]
            simp]
          rw [orWrite_mid _ _ _ _ _ (by simp [hB])]
          rw [show ((0 : Nat) ||| d <<< 6) % 256 = (d % 4) <<< 6 from by
            rw [Nat.zero_or]
            exact hshift]
          simp [List.append_assoc]
        simp only [decodeDigits, hstep, Bool.or_false]
        rw [show (B ++ [((p <<< 3) ||| (d >>> 2)) % 256]) ++ ((d % 4) <<< 6)
              :: List.replicate (L - (offset + 1) - 1) 0
            = (B ++ [((p <<< 3) ||| (d >>> 2)) % 256]) ++ ((d % 4) <<< (8 - 2))
              :: List.replicate (L - (offset + 1) - 1) 0 from rfl]
        rw [ih 2 (offset + 1) (d % 4) L (B ++ [((p <<< 3) ||| (d >>> 2)) % 256]) oob hrest
          (by decide) (by omega) (by simp [hB]) (by omega) (by omega)]
        rw [hstream, show 8 * (L - offset) = 8 * ((L - (offset + 1)) + 1) by omega,
          bytesOfBits_take_step _ _ hl8]
        rw [hsplit.2]
        simp
    · -- index = 6
      rw [show (8 : Nat) - 6 = 2 from rfl]
      have hsplit := decodeHighSplit 6 (by decide) (by decide) p hp d hd
      have hshift := decodeHighShiftMod 6 (by decide) (by decide) d hd
      norm_num at hsplit hshift
      have hl8 : ((partialBits p 6 ++ bits5 d).take 8).length = 8 := by
        rw [List.length_take, List.length_append, partialBits_length p 6 (by omega)]
        rfl
      have hstream : partialBits p 6 ++ bitsOfDigits (d :: rest)
          = (partialBits p 6 ++ bits5 d).take 8
            ++ (partialBits (d % 8) 3 ++ bitsOfDigits rest) := by
        conv_lhs => rw [show partialBits p 6 ++ bitsOfDigits (d :: rest)
            = (partialBits p 6 ++ bits5 d) ++ bitsOfDigits rest from by
          rw [List.append_assoc]; rfl]
        conv_lhs => rw [hsplit.1]
        rw [List.append_assoc]
      by_cases hbreak : offset + 1 ≥ L
      · have hstep : decodeStep d 6 offset (B ++ (p <<< 2) :: List.replicate (L - offset - 1) 0)
            = Sum.inr (B ++ (((p <<< 2) ||| (d >>> 3)) % 256) :: List.replicate (L - offset - 1) 0,
                false) := by
          rw [decodeStep]
          norm_num
          rw [orWrite_mid _ _ _ _ _ hB, if_pos (by omega)]
        simp only [decodeDigits, hstep, Bool.or_false]
        rw [show L - offset - 1 = 0 by omega, List.replicate_zero]
        rw [hstream, show 8 * (L - offset) = 8 * (0 + 1) by omega,
          bytesOfBits_take_step _ _ hl8 0]
        simp only [Nat.mul_zero, List.take_zero, bytesOfBits_nil]
        rw [hsplit.2]
      · have hstep : decodeStep d 6 offset (B ++ (p <<< 2) :: List.replicate (L - offset - 1) 0)
            = Sum.inl (3, offset + 1,
                (B ++ [((p <<< 2) ||| (d >>> 3)) % 256]) ++ ((d % 8) <<< 5)
                  :: List.replicate (L - (offset + 1) - 1) 0, false) := by
          rw [decodeStep]
          norm_num
          rw [orWrite_mid _ _ _ _ _ hB, if_neg (by omega)]
          rw [show B ++ (((p <<< 2) ||| (d >>> 3)) % 256) :: List.replicate (L - offset - 1) 0
              = (B ++ [((p <<< 2) ||| (d >>> 3)) % 256]) ++ (0 : Nat)
                :: List.replicate (L - (offset + 1) - 1) 0 from by
            rw [show L - offset - 1 = (L - (offset + 1) - 1) + 1 by omega, List.replicate_succ]
            simp]
          rw [orWrite_mid _ _ _ _ _ (by simp [hB])]
          rw [show ((0 : Nat) ||| d <<< 5) % 256 = (d % 8) <<< 5 from by
            rw [Nat.zero_or]
            exact hshift]
          simp [List.append_assoc]
        simp only [decodeDigits, hstep, Bool.or_false]
        rw [show (B ++ [((p <<< 2) ||| (d >>> 3)) % 256]) ++ ((d % 8) <<< 5)
              :: List.replicate (L - (offset + 1) - 1) 0
            = (B ++ [((p <<< 2) ||| (d >>> 3)) % 256]) ++ ((d % 8) <<< (8 - 3))
              :: List.replicate (L - (offset + 1) - 1) 0 from rfl]
        rw [ih 3 (offset + 1) (d % 8) L (B ++ [((p <<< 2) ||| (d >>> 3)) % 256]) oob hrest
          (by decide) (by omega) (by simp [hB]) (by omega) (by omega)]
        rw [hstream, show 8 * (L - offset) = 8 * ((L - (offset + 1)) + 1) by omega,
          bytesOfBits_take_step _ _ hl8]
        rw [hsplit.2]
        simp
    · -- index = 7
      rw [show (8 : Nat) - 7 = 1 from rfl]
      have hsplit := decodeHighSplit 7 (by decide) (by decide) p hp d hd
      have hshift := decodeHighShiftMod 7 (by decide) (by decide) d hd
      norm_num at hsplit hshift
      have hl8 : ((partialBits p 7 ++ bits5 d).take 8).length = 8 := by
        rw [List.length_take, List.length_append, partialBits_length p 7 (by omega)]
        rfl
      have hstream : partialBits p 7 ++ bitsOfDigits (d :: rest)
          = (partialBits p 7 ++ bits5 d).take 8
            ++ (partialBits (d % 16) 4 ++ bitsOfDigits rest) := by
        conv_lhs => rw [show partialBits p 7 ++ bitsOfDigits (d :: rest)
            = (partialBits p 7 ++ bits5 d) ++ bitsOfDigits rest from by
          rw [List.append_assoc]; rfl]
        conv_lhs => rw [hsplit.1]
        rw [List.append_assoc]
      by_cases hbreak : offset + 1 ≥ L
      · have hstep : decodeStep d 7 offset (B ++ (p <<< 1) :: List.replicate (L - offset - 1) 0)
            = Sum.inr (B ++ (((p <<< 1) ||| (d >>> 4)) % 256) :: List.replicate (L - offset - 1) 0,
                false) := by
          rw [decodeStep]
          norm_num
          rw [orWrite_mid _ _ _ _ _ hB, if_pos (by omega)]
        simp only [decodeDigits, hstep, Bool.or_false]
        rw [show L - offset - 1 = 0 by omega, List.replicate_zero]
        rw [hstream, show 8 * (L - offset) = 8 * (0 + 1) by omega,
          bytesOfBits_take_step _ _ hl8 0]
        simp only [Nat.mul_zero, List.take_zero, bytesOfBits_nil]
        rw [hsplit.2]
      · have hstep : decodeStep d 7 offset (B ++ (p <<< 1) :: List.replicate (L - offset - 1) 0)
            = Sum.inl (4, offset + 1,
                (B ++ [((p <<< 1) ||| (d >>> 4)) % 256]) ++ ((d % 16) <<< 4)
                  :: List.replicate (L - (offset + 1) - 1) 0, false) := by
          rw [decodeStep]
          norm_num
          rw [orWrite_mid _ _ _ _ _ hB, if_neg (by omega)]
          rw [show B ++ (((p <<< 1) ||| (d >>> 4)) % 256) :: List.replicate (L - offset - 1) 0
              = (B ++ [((p <<< 1) ||| (d >>> 4)) % 256]) ++ (0 : Nat)
                :: List.replicate (L - (offset + 1) - 1) 0 from by
            rw [show L - offset - 1 = (L - (offset + 1) - 1) + 1 by omega, List.replicate_succ]
            simp]
          rw [orWrite_mid _ _ _ _ _ (by simp [hB])]
          rw [show ((0 : Nat) ||| d <<< 4) % 256 = (d % 16) <<< 4 from by
            rw [Nat.zero_or]
            exact hshift]
          simp [List.append_assoc]
        simp only [decodeDigits, hstep, Bool.or_false]
        rw [show (B ++ [((p <<< 1) ||| (d >>> 4)) % 256]) ++ ((d % 16) <<< 4)
              :: List.replicate (L - (offset + 1) - 1) 0
            = (B ++ [((p <<< 1) ||| (d >>> 4)) % 256]) ++ ((d % 16) <<< (8 - 4))
              :: List.replicate (L - (offset + 1) - 1) 0 from rfl]
        rw [ih 4 (offset + 1) (d % 16) L (B ++ [((p <<< 1) ||| (d >>> 4)) % 256]) oob hrest
          (by decide) (by omega) (by simp [hB]) (by omega) (by omega)]
        rw [hstream, show 8 * (L - offset) = 8 * ((L - (offset + 1)) + 1) by omega,
          bytesOfBits_take_step _ _ hl8]
        rw [hsplit.2]
        simp


/-! ## Claim theorems -/

theorem getD_replicate_append (k : Nat) (z : List Nat) :
    ∀ j, j < k → (List.replicate k 0 ++ z).getD j 0 = 0 := by
  induction k with
  | zero => intro j h; omega
  | succ n ih =>
    intro j h
    match j with
    | 0 => rfl
    | j + 1 => exact ih j (by omega)

/-- C5: `tr_dh_align_key` moves the first `key_size` bytes of the buffer to
its end and zero-fills the vacated leading bytes: afterwards the last
`key_size` bytes equal the original first `key_size` bytes and every leading
byte is zero (right-alignment; never left-alignment with right padding). -/
theorem c5_dh_align_key (buf : List Nat) (key_size : Nat) (h : key_size ≤ buf.length) :
    (tr_dh_align_key buf key_size).length = buf.length
    ∧ (∀ j, j < buf.length - key_size → (tr_dh_align_key buf key_size).getD j 0 = 0)
    ∧ (tr_dh_align_key buf key_size).drop (buf.length - key_size) = buf.take key_size := by
  rw [tr_dh_align_key]
  rcases Nat.lt_or_ge key_size buf.length with hlt | hge
  · rw [if_pos hlt]
    refine ⟨?_, ?_, ?_⟩
    · simp only [List.length_append, List.length_replicate, List.length_take]
      omega
    · intro j hj
      exact getD_replicate_append _ _ j hj
    · exact List.drop_left' (by simp)
  · have heq : key_size = buf.length := by omega
    rw [if_neg (by omega)]
    refine ⟨rfl, ?_, ?_⟩
    · intro j hj
      omega
    · rw [heq, Nat.sub_self, List.drop_zero, List.take_length]

/-- C5 witness. -/
theorem c5_dh_align_key_witness :
    2 ≤ [9, 8, 7, 0, 0].length
    ∧ ((tr_dh_align_key [9, 8, 7, 0, 0] 2).length = [9, 8, 7, 0, 0].length
      ∧ (∀ j, j < [9, 8, 7, 0, 0].length - 2 → (tr_dh_align_key [9, 8, 7, 0, 0] 2).getD j 0 = 0)
      ∧ (tr_dh_align_key [9, 8, 7, 0, 0] 2).drop ([9, 8, 7, 0, 0].length - 2)
        = [9, 8, 7, 0, 0].take 2) :=
  ⟨by decide, c5_dh_align_key [9, 8, 7, 0, 0] 2 (by decide)⟩

theorem neg_natCast_tmod (a b : Nat) : (-(a : Int)).tmod (b : Int) = -(((a % b : Nat)) : Int) := by
  match a with
  | 0 => simp
  | n + 1 =>
    rw [show (-(((n + 1 : Nat)) : Int)) = Int.negSucc n from by
      rw [Int.negSucc_eq]
      push_cast
      ring]
    rfl

/-- C4 counterexample: with `upper_bound = 2`, a strong draw of `INT_MIN`
reduces to `0 ≥ 0` and is returned at once, not discarded: with draw list
`[INT_MIN]` the function returns 0, while discarding the draw would have
fallen through to the weak path and returned 1. -/
theorem c4_counterexample :
    tr_rand_int 2 [intMin] 1 = 0 ∧ tr_rand_int 2 [] 1 = 1 := by decide

/-- C4 (amended): `tr_rand_int` returns a value in `[0, upper_bound)` on
both the strong path and the weak-fallback path; an `INT_MIN` draw is
discarded and retried exactly when `2 ^ 31 mod upper_bound ≠ 0` (when
`upper_bound` divides `2 ^ 31`, the reduced draw is `0`, which passes the
`noise >= 0` check and is returned — still in range). -/
theorem c4_rand_int_range (upper_bound : Nat) (h : 0 < upper_bound) :
    (∀ draws weakDraw, 0 ≤ tr_rand_int upper_bound draws weakDraw
      ∧ tr_rand_int upper_bound draws weakDraw < upper_bound)
    ∧ (∀ rest weakDraw, 2 ^ 31 % upper_bound ≠ 0 →
        tr_rand_int upper_bound (intMin :: rest) weakDraw
          = tr_rand_int upper_bound rest weakDraw)
    ∧ (∀ rest weakDraw, 2 ^ 31 % upper_bound = 0 →
        tr_rand_int upper_bound (intMin :: rest) weakDraw = 0) := by
  have hub : (0 : Int) < (upper_bound : Int) := by exact_mod_cast h
  have hmin : (cAbs intMin).tmod (upper_bound : Int) = -(((2 ^ 31 % upper_bound : Nat)) : Int) := by
    rw [show cAbs intMin = -((2 ^ 31 : Nat) : Int) from by rw [cAbs, if_pos rfl]; rfl]
    exact neg_natCast_tmod _ _
  refine ⟨?_, ?_, ?_⟩
  · intro draws weakDraw
    induction draws with
    | nil =>
      rw [show tr_rand_int upper_bound [] weakDraw
          = ((weakDraw : Int)).tmod (upper_bound : Int) from rfl]
      exact ⟨Int.tmod_nonneg _ (Int.natCast_nonneg _), Int.tmod_lt_of_pos _ hub⟩
    | cons d rest ih =>
      rw [tr_rand_int]
      by_cases hd : (0 : Int) ≤ (cAbs d).tmod (upper_bound : Int)
      · rw [if_pos hd]
        exact ⟨hd, Int.tmod_lt_of_pos _ hub⟩
      · rw [if_neg hd]
        exact ih
  · intro rest weakDraw hndvd
    rw [tr_rand_int]
    rw [if_neg (by rw [hmin]; omega)]
  · intro rest weakDraw hdvd
    rw [tr_rand_int]
    rw [if_pos (by rw [hmin, hdvd]; rfl)]
    rw [hmin, hdvd]
    rfl

/-- C4 witness. -/
theorem c4_rand_int_range_witness :
    0 < 2 ∧ (0 ≤ tr_rand_int 2 [5] 9 ∧ tr_rand_int 2 [5] 9 < 2) :=
  ⟨by decide, (c4_rand_int_range 2 (by decide)).1 [5] 9⟩

/-- C2 (code bug): the guard of `tr_ssha1_matches` is
`sourcelen < 2 * SHA_DIGEST_LENGTH - 1`, i.e. `< 39`, while the salt length
is computed as `sourcelen - 41` in `size_t`.  A 40-character token passes the
guard, `saltlen` wraps around to `2 ^ 64 - 1`, and the following
`memcpy (salt, ssha1 + 41, saltlen)` reads far outside the token (modelled
as `none`); the claim requires `false` with no out-of-range access.  A
38-character token is still caught by the guard and does return `false`. -/
theorem c2_matches_oob :
    tr_ssha1_matches (fun _ => List.replicate 20 0) (List.replicate 40 97) [] = none
    ∧ tr_ssha1_matches (fun _ => List.replicate 20 0) (List.replicate 38 97) [] = some false := by
  constructor
  · rfl
  · rfl

/-- C7 (code bug): on the single-symbol input `"B"` the stripped length is 1,
the reported output length is `1 * 5 / 8 = 0`, yet the decode loop still
performs the store `output_bytes[0] |= digit << 3` — one byte past the
computed output length (the returned out-of-bounds flag): the loop does not
stop before its first store when the computed length is already reached. -/
theorem c7_decode_write_past_length :
    tr_base32_decode [66] (some ()) true = (some 0, some ([], true)) := by rfl

/-- C8 counterexample: the spec's own example pair.  `"AB%CD"` does NOT
decode equivalently to `"ABCD"`: the reported lengths are 3 and 2 (the
length formula counts the skipped `'%'`), and the decoded bytes gain a
third byte holding the final digit's padding bits. -/
theorem c8_counterexample :
    tr_base32_decode [65, 66, 37, 67, 68] (some ()) true = (some 3, some ([0, 68, 48], false))
    ∧ tr_base32_decode [65, 66, 67, 68] (some ()) true = (some 2, some ([0, 68], false)) := by
  constructor
  · rfl
  · rfl

/-- C8 (amended): inserting characters outside the lookup table leaves the
accepted digit sequence unchanged, but the reported output length
`floor(5 * stripped_len / 8)` counts the inserted characters.  When the two
computed output lengths agree, `s'` decodes exactly as `s` (same reported
length, same bytes, for every output/output_length pointer combination);
when they do not agree, the two calls differ already in the reported
length. -/
theorem c8_skip_invalid (s s' : List Nat)
    (hdig : (stripEq s').filterMap validDigit = (stripEq s).filterMap validDigit) :
    ((stripEq s').length * 5 / 8 = (stripEq s).length * 5 / 8 →
      ∀ output wantLen, tr_base32_decode s' output wantLen = tr_base32_decode s output wantLen)
    ∧ ((stripEq s').length * 5 / 8 ≠ (stripEq s).length * 5 / 8 →
      tr_base32_decode s' (some ()) true ≠ tr_base32_decode s (some ()) true) := by
  constructor
  · intro hlen output wantLen
    simp only [tr_base32_decode]
    rw [decodeChars_eq, decodeChars_eq, hdig, hlen]
  · intro hlen heq
    apply hlen
    have h1 := congrArg Prod.fst heq
    simp only [tr_base32_decode, if_pos rfl] at h1
    exact Option.some.inj h1

/-- C8 witness: inserting `'%'` into `"ABCDE"` (stripped lengths 6 and 5
both give output length 3) decodes identically. -/
theorem c8_skip_invalid_witness :
    (stripEq [65, 66, 37, 67, 68, 69]).filterMap validDigit
        = (stripEq [65, 66, 67, 68, 69]).filterMap validDigit
    ∧ (stripEq [65, 66, 37, 67, 68, 69]).length * 5 / 8
        = (stripEq [65, 66, 67, 68, 69]).length * 5 / 8
    ∧ tr_base32_decode [65, 66, 37, 67, 68, 69] (some ()) true
        = tr_base32_decode [65, 66, 67, 68, 69] (some ()) true :=
  ⟨by decide, by decide,
    (c8_skip_invalid [65, 66, 67, 68, 69] [65, 66, 37, 67, 68, 69] (by decide)).1 (by decide)
      (some ()) true⟩

/-- C10: a NULL output pointer turns both codec functions into pure length
queries: the computed output length is stored into `*output_length` exactly
when that pointer is non-NULL, and no output byte is written. -/
theorem c10_null_output (input : List Nat) :
    (∀ wantLen, tr_base32_encode input none wantLen
      = (if wantLen then some ((input.length * 8 + 4) / 5) else none, none))
    ∧ (∀ wantLen, tr_base32_decode input none wantLen
      = (if wantLen then some ((stripEq input).length * 5 / 8) else none, none)) := by
  constructor
  · intro wantLen
    rfl
  · intro wantLen
    rfl


theorem base32char_mem : ∀ g, g < 32 → base32char g ∈ base32_chars := by decide

theorem base32char_ne_eq : ∀ g, g < 32 → ¬(base32char g == 61) = true := by decide

theorem validDigit_base32char : ∀ g, g < 32 → validDigit (base32char g) = some g := by decide

theorem dropWhile_eq_self_of (p : Nat → Bool) (l : List Nat) (h : ∀ x ∈ l, ¬p x = true) :
    l.dropWhile p = l := by
  cases l with
  | nil => rfl
  | cons a t =>
    rw [List.dropWhile_cons, if_neg (h a (by simp))]

theorem stripEq_of_no_eq (l : List Nat) (h : ∀ x ∈ l, ¬(x == 61) = true) : stripEq l = l := by
  rw [stripEq, dropWhile_eq_self_of _ _ (fun x hx => h x (List.mem_reverse.1 hx)),
    List.reverse_reverse]

theorem filterMap_some_of (f : Nat → Option Nat) (l : List Nat) (h : ∀ x ∈ l, f x = some x) :
    l.filterMap f = l := by
  induction l with
  | nil => rfl
  | cons a t ih =>
    rw [List.filterMap_cons, h a (by simp), ih (fun x hx => h x (by simp [hx]))]

/-- Digits actually produced by encoding, with their basic facts. -/
theorem encode_digits_facts (input : List Nat) (h : ∀ x ∈ input, x < 256) :
    encodeLoop input 0 0 = (groups5 (toBits input)).map base32char
    ∧ (∀ g ∈ groups5 (toBits input), g < 32)
    ∧ (groups5 (toBits input)).length = (input.length * 8 + 4) / 5 := by
  refine ⟨?_, ?_, ?_⟩
  · rw [encodeLoop_spec input h (2 * (input.length - 0) + (7 - 0) / 4) 0 0 (by omega) (by omega)]
    rw [show 8 * 0 + 0 = 0 by omega, List.drop_zero]
  · exact groups5_lt _ (toBits_mem_lt input)
  · rw [groups5_length, toBits_length]
    congr 1
    ring

/-- C6: `tr_base32_encode` emits exactly `ceil(8 n / 5)` symbols, namely the
5-bit MSB-first groups of the input bitstream (the last group zero-extended)
mapped through the 32-character alphabet; every emitted byte is a character
of `base32_chars` and no padding character is produced. -/
theorem c6_encode_bitstream (input : List Nat) (h : ∀ x ∈ input, x < 256) :
    tr_base32_encode input (some ()) true
      = (some ((input.length * 8 + 4) / 5), some ((groups5 (toBits input)).map base32char))
    ∧ (encodeLoop input 0 0).length = (input.length * 8 + 4) / 5
    ∧ (∀ c ∈ encodeLoop input 0 0, c ∈ base32_chars) := by
  obtain ⟨heq, hlt, hlen⟩ := encode_digits_facts input h
  refine ⟨?_, ?_, ?_⟩
  · rw [tr_base32_encode]
    rw [heq]
    rfl
  · rw [heq, List.length_map, hlen]
  · intro c hc
    rw [heq] at hc
    obtain ⟨g, hg, rfl⟩ := List.mem_map.1 hc
    exact base32char_mem g (hlt g hg)

/-- C6 witness. -/
theorem c6_encode_bitstream_witness :
    (∀ x ∈ [104, 101, 108, 108, 111], x < 256)
    ∧ tr_base32_encode [104, 101, 108, 108, 111] (some ()) true
      = (some (([104, 101, 108, 108, 111].length * 8 + 4) / 5),
         some ((groups5 (toBits [104, 101, 108, 108, 111])).map base32char)) :=
  ⟨by decide, (c6_encode_bitstream [104, 101, 108, 108, 111] (by decide)).1⟩

/-- C1: decoding the encoding of any non-empty byte string `b` yields `b`
exactly: the reported output length is `floor(5 * ceil(8 |b| / 5) / 8) = |b|`
and the decoded bytes are `b`, the padding bits introduced by `encode`
reconstructed as zero (and no out-of-bounds store happens). -/
theorem c1_base32_roundtrip (b : List Nat) (hne : b ≠ []) (hb : ∀ x ∈ b, x < 256) :
    tr_base32_decode ((tr_base32_encode b (some ()) true).2.getD []) (some ()) true
      = (some b.length, some (b, false)) := by
  obtain ⟨heq, hlt, hlen⟩ := encode_digits_facts b hb
  have hn : 0 < b.length := List.length_pos.2 hne
  rw [show (tr_base32_encode b (some ()) true).2.getD [] = encodeLoop b 0 0 from rfl, heq]
  set digits := groups5 (toBits b) with hdigits
  set chars := digits.map base32char with hchars
  have hstrip : stripEq chars = chars := by
    apply stripEq_of_no_eq
    intro x hx
    obtain ⟨g, hg, rfl⟩ := List.mem_map.1 hx
    exact base32char_ne_eq g (hlt g hg)
  have hfilter : chars.filterMap validDigit = digits := by
    rw [hchars, List.filterMap_map]
    apply filterMap_some_of
    intro g hg
    exact validDigit_base32char g (hlt g hg)
  have hcl : chars.length = (b.length * 8 + 4) / 5 := by
    rw [hchars, List.length_map, hlen]
  have hmyLen : chars.length * 5 / 8 = b.length := by
    rw [hcl]
    omega
  rw [tr_base32_decode.eq_def]
  simp only [hstrip, hmyLen]
  have hbuf : List.replicate b.length 0
      = ([] : List Nat) ++ ((0 : Nat) <<< (8 - 0)) :: List.replicate (b.length - 0 - 1) 0 := by
    rw [show ((0 : Nat) <<< (8 - 0)) = 0 from rfl, List.nil_append]
    rw [show b.length = (b.length - 1) + 1 by omega, List.replicate_succ]
    simp
  rw [decodeChars_eq, hfilter, hbuf]
  rw [decodeDigits_spec digits 0 0 0 b.length [] false hlt (by omega) (by omega) rfl hn
    (by rw [hlen]; omega)]
  obtain ⟨z, hz0, hz⟩ := bitsOfDigits_groups5 (toBits b) (toBits_mem_lt b)
  rw [show partialBits 0 0 ++ bitsOfDigits digits = bitsOfDigits digits from rfl]
  rw [hdigits, hz, List.take_left' (by rw [toBits_length]; omega)]
  rw [bytesOfBits_toBits b hb]
  rfl

/-- C1 witness. -/
theorem c1_base32_roundtrip_witness :
    ([104, 101, 108, 108, 111] ≠ ([] : List Nat))
    ∧ tr_base32_decode
        ((tr_base32_encode [104, 101, 108, 108, 111] (some ()) true).2.getD []) (some ()) true
      = (some [104, 101, 108, 108, 111].length, some ([104, 101, 108, 108, 111], false)) :=
  ⟨by decide, c1_base32_roundtrip [104, 101, 108, 108, 111] (by decide) (by decide)⟩


theorem tr_sha1_to_hex_length : ∀ l : List Nat, (tr_sha1_to_hex l).length = 2 * l.length
  | [] => rfl
  | b :: t => by
    rw [show tr_sha1_to_hex (b :: t)
        = hexDigit (b / 16) :: hexDigit (b % 16) :: tr_sha1_to_hex t from rfl]
    simp only [List.length_cons, tr_sha1_to_hex_length t]
    ring

theorem hexDigit_inj : ∀ a, a < 16 → ∀ b, b < 16 → hexDigit a = hexDigit b → a = b := by decide

theorem tr_sha1_to_hex_inj : ∀ d1 d2 : List Nat, (∀ x ∈ d1, x < 256) → (∀ x ∈ d2, x < 256) →
    tr_sha1_to_hex d1 = tr_sha1_to_hex d2 → d1 = d2 := by
  intro d1
  induction d1 with
  | nil =>
    intro d2 _ _ heq
    cases d2 with
    | nil => rfl
    | cons b t => exact absurd heq (by simp [tr_sha1_to_hex])
  | cons a t1 ih =>
    intro d2 h1 h2 heq
    cases d2 with
    | nil => exact absurd heq (by simp [tr_sha1_to_hex])
    | cons b t2 =>
      have ha : a < 256 := h1 a (by simp)
      have hb : b < 256 := h2 b (by simp)
      rw [show tr_sha1_to_hex (a :: t1)
          = hexDigit (a / 16) :: hexDigit (a % 16) :: tr_sha1_to_hex t1 from rfl,
        show tr_sha1_to_hex (b :: t2)
          = hexDigit (b / 16) :: hexDigit (b % 16) :: tr_sha1_to_hex t2 from rfl] at heq
      injection heq with hq heq
      injection heq with hr heq
      have hq' := hexDigit_inj (a / 16) (by omega) (b / 16) (by omega) hq
      have hr' := hexDigit_inj (a % 16) (by omega) (b % 16) (by omega) hr
      have hab : a = b := by omega
      rw [hab, ih t2 (fun x hx => h1 x (by simp [hx])) (fun x hx => h2 x (by simp [hx])) heq]

theorem saltOf_length (rawSalt : List Nat) : (saltOf rawSalt).length = rawSalt.length := by
  rw [saltOf, List.length_map]

/-- C9: the token built by `tr_ssha1` starts with the sentinel `'{'` and, for
the 20-byte digest and 8-byte salt, is exactly `'{'`, 40 hex characters, then
the 8 salt characters: 49 characters in all (the NUL terminator is the C
string's end and not part of the modelled contents). -/
theorem c9_token_layout (sha1 : List Nat → List Nat) (p rawSalt : List Nat)
    (hsalt : rawSalt.length = 8) (hlen : (sha1 (p ++ saltOf rawSalt)).length = 20) :
    tr_ssha1 sha1 p rawSalt
      = 123 :: (tr_sha1_to_hex (sha1 (p ++ saltOf rawSalt)) ++ saltOf rawSalt)
    ∧ (tr_ssha1 sha1 p rawSalt).headD 0 = 123
    ∧ (tr_ssha1 sha1 p rawSalt).length = 49 := by
  refine ⟨rfl, rfl, ?_⟩
  rw [show tr_ssha1 sha1 p rawSalt
      = 123 :: (tr_sha1_to_hex (sha1 (p ++ saltOf rawSalt)) ++ saltOf rawSalt) from rfl]
  simp only [List.length_cons, List.length_append, tr_sha1_to_hex_length, saltOf_length,
    hsalt, hlen]

/-- C9 witness. -/
theorem c9_token_layout_witness :
    (List.replicate 8 0).length = 8
    ∧ (tr_ssha1 (fun l => (l.map (fun x => x % 256) ++ List.replicate 20 48).take 20)
        [97] (List.replicate 8 0)).headD 0 = 123
    ∧ (tr_ssha1 (fun l => (l.map (fun x => x % 256) ++ List.replicate 20 48).take 20)
        [97] (List.replicate 8 0)).length = 49 :=
  ⟨by decide,
    (c9_token_layout (fun l => (l.map (fun x => x % 256) ++ List.replicate 20 48).take 20)
      [97] (List.replicate 8 0) (by decide) (by decide)).2.1,
    (c9_token_layout (fun l => (l.map (fun x => x % 256) ++ List.replicate 20 48).take 20)
      [97] (List.replicate 8 0) (by decide) (by decide)).2.2⟩

/-- C3: against any digest function honouring the external provider's
contract at the two hashed messages (20 bytes, byte-valued) and
distinguishing them (no collision between `p ++ salt` and
`(p ++ "x") ++ salt`), the token of `tr_ssha1 (p)` verifies against `p` and
fails against `p ++ "x"`, for every raw 8-byte salt the Random Source may
draw. -/
theorem c3_ssha1_matches (sha1 : List Nat → List Nat) (p rawSalt : List Nat)
    (hsalt : rawSalt.length = 8)
    (hlen1 : (sha1 (p ++ saltOf rawSalt)).length = 20)
    (hb1 : ∀ b ∈ sha1 (p ++ saltOf rawSalt), b < 256)
    (hlen2 : (sha1 ((p ++ [120]) ++ saltOf rawSalt)).length = 20)
    (hb2 : ∀ b ∈ sha1 ((p ++ [120]) ++ saltOf rawSalt), b < 256)
    (hcoll : sha1 ((p ++ [120]) ++ saltOf rawSalt) ≠ sha1 (p ++ saltOf rawSalt)) :
    tr_ssha1_matches sha1 (tr_ssha1 sha1 p rawSalt) p = some true
    ∧ tr_ssha1_matches sha1 (tr_ssha1 sha1 p rawSalt) (p ++ [120]) = some false := by
  have hsl : (saltOf rawSalt).length = 8 := by rw [saltOf_length, hsalt]
  have hhl1 : (tr_sha1_to_hex (sha1 (p ++ saltOf rawSalt))).length = 40 := by
    rw [tr_sha1_to_hex_length, hlen1]
  have htok : tr_ssha1 sha1 p rawSalt
      = 123 :: (tr_sha1_to_hex (sha1 (p ++ saltOf rawSalt)) ++ saltOf rawSalt) := rfl
  have htlen : (tr_ssha1 sha1 p rawSalt).length = 49 := by
    rw [htok]
    simp only [List.length_cons, List.length_append, hhl1, hsl]
  have hdrop : ((tr_ssha1 sha1 p rawSalt).drop 41).take 8 = saltOf rawSalt := by
    rw [htok, show (41 : Nat) = 40 + 1 from rfl]
    rw [show ((123 : Nat) :: (tr_sha1_to_hex (sha1 (p ++ saltOf rawSalt)) ++ saltOf rawSalt)).drop
        (40 + 1) = (tr_sha1_to_hex (sha1 (p ++ saltOf rawSalt)) ++ saltOf rawSalt).drop 40
      from rfl]
    rw [List.drop_left' hhl1, ← hsl, List.take_length]
  simp only [List.append_assoc, List.singleton_append] at hlen2 hb2 hcoll
  constructor
  · rw [tr_ssha1_matches.eq_def]
    simp only [htlen]
    norm_num [SHA_DIGEST_LENGTH]
    rw [hdrop]
    rw [htok]
  · rw [tr_ssha1_matches.eq_def]
    simp only [htlen]
    norm_num [SHA_DIGEST_LENGTH]
    rw [hdrop]
    have hneq : tr_ssha1 sha1 p rawSalt
        ≠ 123 :: (tr_sha1_to_hex (sha1 (p ++ 120 :: saltOf rawSalt)) ++ saltOf rawSalt) := by
      rw [htok]
      intro heq
      injection heq with h123 heq
      have hhex := List.append_cancel_right heq
      exact hcoll (tr_sha1_to_hex_inj _ _ hb2 hb1 hhex.symm)
    simp [hneq]

/-- C3 witness: a concrete byte-valued digest stub separating the two
messages. -/
theorem c3_ssha1_matches_witness :
    (List.replicate 8 0).length = 8
    ∧ tr_ssha1_matches (fun l => (l.map (fun x => x % 256) ++ List.replicate 20 48).take 20)
        (tr_ssha1 (fun l => (l.map (fun x => x % 256) ++ List.replicate 20 48).take 20)
          [97] (List.replicate 8 0)) [97] = some true
    ∧ tr_ssha1_matches (fun l => (l.map (fun x => x % 256) ++ List.replicate 20 48).take 20)
        (tr_ssha1 (fun l => (l.map (fun x => x % 256) ++ List.replicate 20 48).take 20)
          [97] (List.replicate 8 0)) ([97] ++ [120]) = some false :=
  ⟨by decide,
    (c3_ssha1_matches (fun l => (l.map (fun x => x % 256) ++ List.replicate 20 48).take 20)
      [97] (List.replicate 8 0) (by decide) (by decide) (by decide) (by decide) (by decide)
      (by decide)).1,
    (c3_ssha1_matches (fun l => (l.map (fun x => x % 256) ++ List.replicate 20 48).take 20)
      [97] (List.replicate 8 0) (by decide) (by decide) (by decide) (by decide) (by decide)
      (by decide)).2⟩

end CryptoUtils
